import Mathlib

/-!
Shallow embedding of the chess pseudo-legal move generator
(`src/chess_lib`): coordinate arithmetic (`board/mod.rs`), the piece
model (`piece.rs`), the error taxonomy (`error.rs`) and the mailbox
board with its mutators and move generation (`board/mailbox.rs`).

Rust `u8`/`i8` coordinates are modelled with `Fin 8` (the `Position`
invariant `x, y < 8` is enforced by the only constructor, so the fields
can never leave the range) and `Int` (offsets; the claims under
verification restrict offsets to `(-8, 8)`, where `i8` arithmetic never
wraps, so `Int` is exact there).  Rust `&mut self` methods returning
`Result<(), PieceError>` become state-passing functions returning the
result together with the (possibly updated) board.
-/

deriving instance DecidableEq for Except

namespace Chess

/-- Chess piece colors (`piece.rs`, `Color`).  The Rust enum carries the
discriminants `White = 1`, `Black = -1`. -/
inductive Color where
  | White
  | Black
deriving DecidableEq, Repr

/-- The numeric discriminant of a color: the Rust expression
`color as i8`. -/
def Color.sign : Color → Int
  | .White => 1
  | .Black => -1

/-- Piece types (`piece.rs`, `PieceType`). -/
inductive PieceType where
  | Pawn
  | Knight
  | Bishop
  | Rook
  | Queen
  | King
deriving DecidableEq, Repr

/-- Chess piece (`piece.rs`, `Piece`). -/
structure Piece where
  color : Color
  piece_type : PieceType
  moved : Bool
deriving DecidableEq, Repr

/-- Position on the chess board (`board/mod.rs`, `Position`).  The Rust
struct has private `u8` fields kept `< 8` by `Position::new`; the `Fin 8`
fields carry that invariant. -/
structure Position where
  x : Fin 8
  y : Fin 8
deriving DecidableEq, Repr

/-- Offset to a position (`board/mod.rs`, `Offset`), `i8` components. -/
structure Offset where
  x : Int
  y : Int
deriving DecidableEq, Repr

/-- Error for coordinates outside the board (`error.rs`,
`PositionOutOfBounds`), carrying the offending pair. -/
structure PositionOutOfBounds where
  x : Int
  y : Int
deriving DecidableEq, Repr

/-- Errors raised by piece operations (`error.rs`, `PieceError`). -/
inductive PieceError where
  | NotFound (p : Position)
  | Occupied (p : Position) (t : PieceType)
deriving DecidableEq, Repr

/-- `Position::new` (`board/mod.rs`): succeeds iff both coordinates are
less than 8. -/
def Position.new (x y : Nat) : Except PositionOutOfBounds Position :=
  if h : x < 8 ∧ y < 8 then
    .ok ⟨⟨x, h.1⟩, ⟨y, h.2⟩⟩
  else
    .error ⟨x, y⟩

/-- `impl Add<Offset> for Position` (`board/mod.rs`): componentwise sum
in a wider domain, then revalidation.  The Rust code converts each sum
back to `u8` (failing when negative) and then calls `Position::new`
(failing when `≥ 8`); both failure paths produce a
`PositionOutOfBounds` carrying the raw sums, so they are rendered as a
single bounds test. -/
def posAdd (p : Position) (o : Offset) : Except PositionOutOfBounds Position :=
  let nx : Int := (p.x : Nat) + o.x
  let ny : Int := (p.y : Nat) + o.y
  if h : 0 ≤ nx ∧ nx < 8 ∧ 0 ≤ ny ∧ ny < 8 then
    .ok ⟨⟨nx.toNat, by omega⟩, ⟨ny.toNat, by omega⟩⟩
  else
    .error ⟨nx, ny⟩

/-- Directions a piece can move (`board/mod.rs`, `Direction`). -/
inductive Direction where
  | N
  | NE
  | E
  | SE
  | S
  | SW
  | W
  | NW
deriving DecidableEq, Repr

/-- The unit offset of a direction, as matched at the top of
`Board::check_direction` (`board/mailbox.rs`). -/
def dirOffset : Direction → Offset
  | .N => ⟨0, 1⟩
  | .NE => ⟨1, 1⟩
  | .E => ⟨1, 0⟩
  | .SE => ⟨1, -1⟩
  | .S => ⟨0, -1⟩
  | .SW => ⟨-1, -1⟩
  | .W => ⟨-1, 0⟩
  | .NW => ⟨-1, 1⟩

/-- The mailbox board (`board/mailbox.rs`, `Board`): an 8×8 grid of
optional pieces, modelled as its indexing function `Position →
Option Piece` (the `Index` impl reads `pieces[(y, x)]`; every valid
index pair is one `Position`). -/
structure Board where
  pieces : Position → Option Piece

/-- Writing one cell of the board (the `IndexMut` impl:
`self[position] = value`). -/
def Board.set (b : Board) (p : Position) (v : Option Piece) : Board :=
  ⟨fun q => if q = p then v else b.pieces q⟩

/-- `Board::move_piece` (`board/mailbox.rs`): destination checked first
(`Occupied`), then source (`NotFound`); on success the piece is marked
moved, copied to the destination and the source is cleared.  The
`&mut self` method becomes a function returning the `Result` together
with the board after the call. -/
def movePiece (b : Board) (from_position to_position : Position) :
    Except PieceError Unit × Board :=
  match b.pieces to_position with
  | some piece => (.error (.Occupied to_position piece.piece_type), b)
  | none =>
    match b.pieces from_position with
    | none => (.error (.NotFound from_position), b)
    | some piece =>
      let piece := { piece with moved := true }
      let b1 := b.set from_position (some piece)
      let b2 := b1.set to_position (b1.pieces from_position)
      let b3 := b2.set from_position none
      (.ok (), b3)

/-- `Board::take_piece` (`board/mailbox.rs`): clears an occupied cell,
`NotFound` on an empty one. -/
def takePiece (b : Board) (position : Position) :
    Except PieceError Unit × Board :=
  match b.pieces position with
  | some _ => (.ok (), b.set position none)
  | none => (.error (.NotFound position), b)

/-- `Board::check_position` (`board/mailbox.rs`): the shared
destination-acceptance predicate. -/
def check_position (b : Board) (position : Position) (color : Color)
    (can_take must_take : Bool) : Bool :=
  match b.pieces position with
  | none => !must_take
  | some piece => if piece.color = color then false else can_take

/-- One candidate square of a fixed-offset rule: the pattern
`if let Ok(position) = position + offset { if self.check_position(position,
color, can_take, must_take) { positions.push(position) } }` shared by
`check_pawn`, `check_knight` and `check_king` (`board/mailbox.rs`),
rendered as the (at most one-element) list of pushed squares. -/
def candidate (b : Board) (position : Position) (color : Color)
    (o : Offset) (can_take must_take : Bool) : List Position :=
  match posAdd position o with
  | .ok q => if check_position b q color can_take must_take then [q] else []
  | .error _ => []

/-- `Board::check_pawn` (`board/mailbox.rs`): double step (only when the
pawn has not moved), single step, and the two diagonal captures, pushed
in that order. -/
def check_pawn (b : Board) (position : Position) (color : Color)
    (moved : Bool) : List Position :=
  (if moved then [] else candidate b position color ⟨0, 2 * color.sign⟩ false false)
    ++ candidate b position color ⟨0, color.sign⟩ false false
    ++ candidate b position color ⟨1, color.sign⟩ true true
    ++ candidate b position color ⟨-1, color.sign⟩ true true

/-- The `for offset in offsets` loop shared verbatim by
`Board::check_knight` and `Board::check_king` (`board/mailbox.rs`):
every offset is tried once with `check_position(_, color, true, false)`. -/
def scanOffsets (b : Board) (position : Position) (color : Color) :
    List Offset → List Position
  | [] => []
  | o :: rest =>
      candidate b position color o true false ++ scanOffsets b position color rest

/-- The fixed offset table of `Board::check_knight` (`board/mailbox.rs`),
in source order. -/
def knightOffsets : List Offset :=
  [⟨2, 1⟩, ⟨-2, 1⟩, ⟨-2, -1⟩, ⟨2, -1⟩, ⟨1, 2⟩, ⟨-1, 2⟩, ⟨-1, -2⟩, ⟨1, -2⟩]

/-- The fixed offset table of `Board::check_king` (`board/mailbox.rs`),
in source order. -/
def kingOffsets : List Offset :=
  [⟨1, 1⟩, ⟨-1, 1⟩, ⟨-1, -1⟩, ⟨1, -1⟩, ⟨1, 0⟩, ⟨-1, 0⟩, ⟨0, -1⟩, ⟨0, 1⟩]

/-- `Board::check_knight` (`board/mailbox.rs`). -/
def check_knight (b : Board) (position : Position) (color : Color) : List Position :=
  scanOffsets b position color knightOffsets

/-- `Board::check_king` (`board/mailbox.rs`). -/
def check_king (b : Board) (position : Position) (color : Color) : List Position :=
  scanOffsets b position color kingOffsets

/-- A termination measure for the ray scan of `Board::check_direction`:
the distance to the board edge along a coordinate that the direction
strictly moves. -/
def dirMeasure (d : Direction) (p : Position) : Nat :=
  match d with
  | .N | .NE | .NW => 7 - p.y
  | .S | .SE | .SW => p.y
  | .E => 7 - p.x
  | .W => p.x

/-- The `loop` of `Board::check_direction` (`board/mailbox.rs`): advance
by the unit offset; stop at the board edge (addition fails) collecting
what was gathered; push and continue on an empty square; stop on a
friendly piece without pushing; push and stop on an enemy piece.  The
loop is expressed with a fuel argument; each iteration strictly
decreases `dirMeasure` (which starts below 8), so any fuel above the
measure — in particular the 8 used by `check_direction` — computes the
loop exactly (`check_direction_aux_stable`). -/
def check_direction_aux (b : Board) (o : Offset) (color : Color) :
    Nat → Position → List Position
  | 0, _ => []
  | fuel + 1, position =>
    match posAdd position o with
    | .error _ => []
    | .ok q =>
      match b.pieces q with
      | none => q :: check_direction_aux b o color fuel q
      | some piece => if piece.color = color then [] else [q]

/-- `Board::check_direction` (`board/mailbox.rs`). -/
def check_direction (b : Board) (position : Position) (direction : Direction)
    (color : Color) : List Position :=
  check_direction_aux b (dirOffset direction) color 8 position

/-- `Board::check_directions` (`board/mailbox.rs`): the per-direction
results appended in order. -/
def check_directions (b : Board) (position : Position)
    (directions : List Direction) (color : Color) : List Position :=
  directions.foldl (fun out d => out ++ check_direction b position d color) []

/-- `Board::check_positions` (`board/mailbox.rs`): `NotFound` on an
empty square, otherwise dispatch on the piece type. -/
def check_positions (b : Board) (position : Position) :
    Except PieceError (List Position) :=
  match b.pieces position with
  | none => .error (.NotFound position)
  | some piece =>
    .ok (match piece.piece_type with
      | .Pawn => check_pawn b position piece.color piece.moved
      | .Knight => check_knight b position piece.color
      | .Bishop => check_directions b position [.NE, .SE, .SW, .NW] piece.color
      | .Rook => check_directions b position [.N, .E, .S, .W] piece.color
      | .Queen =>
          check_directions b position [.N, .NE, .E, .SE, .S, .SW, .W, .NW] piece.color
      | .King => check_king b position piece.color)

/-! ### Basic lemmas about coordinate addition and cell updates -/

theorem Board.set_self (b : Board) (p : Position) (v : Option Piece) :
    (b.set p v).pieces p = v := by
  simp [Board.set]

theorem Board.set_other (b : Board) (p q : Position) (v : Option Piece)
    (h : q ≠ p) : (b.set p v).pieces q = b.pieces q := by
  simp [Board.set, h]

theorem posAdd_ok_coords {p : Position} {o : Offset} {q : Position}
    (h : posAdd p o = .ok q) :
    (q.x.val : Int) = p.x.val + o.x ∧ (q.y.val : Int) = p.y.val + o.y := by
  simp only [posAdd] at h
  split at h
  · rename_i hb
    injection h with h
    subst h
    constructor <;> simp <;> omega
  · exact absurd h (by simp)

theorem posAdd_ok_of_bounds {p : Position} {o : Offset}
    (h : 0 ≤ (p.x.val : Int) + o.x ∧ (p.x.val : Int) + o.x < 8 ∧
         0 ≤ (p.y.val : Int) + o.y ∧ (p.y.val : Int) + o.y < 8) :
    ∃ q, posAdd p o = .ok q := by
  refine ⟨⟨⟨((p.x.val : Int) + o.x).toNat, by omega⟩,
          ⟨((p.y.val : Int) + o.y).toNat, by omega⟩⟩, ?_⟩
  simp only [posAdd]
  rw [dif_pos h]

theorem posAdd_error_of_bounds {p : Position} {o : Offset}
    (h : ¬(0 ≤ (p.x.val : Int) + o.x ∧ (p.x.val : Int) + o.x < 8 ∧
           0 ≤ (p.y.val : Int) + o.y ∧ (p.y.val : Int) + o.y < 8)) :
    posAdd p o = .error ⟨(p.x.val : Int) + o.x, (p.y.val : Int) + o.y⟩ := by
  simp only [posAdd]
  rw [dif_neg h]

/-- Adding the same offset at the same source yields the same target
only once: the target's coordinates determine the offset. -/
theorem posAdd_offset_injective {p : Position} {o1 o2 : Offset} {q : Position}
    (h1 : posAdd p o1 = .ok q) (h2 : posAdd p o2 = .ok q) : o1 = o2 := by
  obtain ⟨hx1, hy1⟩ := posAdd_ok_coords h1
  obtain ⟨hx2, hy2⟩ := posAdd_ok_coords h2
  cases o1
  cases o2
  simp_all

/-- Position equality through integer coordinates. -/
theorem Position.ext_int {p q : Position}
    (hx : (p.x.val : Int) = q.x.val) (hy : (p.y.val : Int) = q.y.val) :
    p = q := by
  cases p
  cases q
  simp_all [Fin.ext_iff]

/-! ### C8: bounds-checked coordinate addition -/

/-- C8: for every valid `Position` `s` (validity is carried by the `Fin 8`
fields) and every `Offset` `o` with both components in `(-8, 8)`,
`s + o` is `Ok` exactly when both componentwise sums lie in `[0, 8)`;
the result's components equal the componentwise sums, and otherwise an
`OutOfBounds` error is returned. -/
theorem c8_posAdd_spec (p : Position) (o : Offset)
    (hx1 : -8 < o.x) (hx2 : o.x < 8) (hy1 : -8 < o.y) (hy2 : o.y < 8) :
    ((∃ q, posAdd p o = .ok q) ↔
      (0 ≤ (p.x.val : Int) + o.x ∧ (p.x.val : Int) + o.x < 8 ∧
       0 ≤ (p.y.val : Int) + o.y ∧ (p.y.val : Int) + o.y < 8)) ∧
    (∀ q, posAdd p o = .ok q →
      (q.x.val : Int) = p.x.val + o.x ∧ (q.y.val : Int) = p.y.val + o.y) ∧
    (¬(0 ≤ (p.x.val : Int) + o.x ∧ (p.x.val : Int) + o.x < 8 ∧
       0 ≤ (p.y.val : Int) + o.y ∧ (p.y.val : Int) + o.y < 8) →
      ∃ e, posAdd p o = .error e) := by
  refine ⟨⟨?_, fun h => posAdd_ok_of_bounds h⟩,
          fun q h => posAdd_ok_coords h, fun h => ⟨_, posAdd_error_of_bounds h⟩⟩
  rintro ⟨q, hq⟩
  obtain ⟨hx, hy⟩ := posAdd_ok_coords hq
  have h1 := q.x.isLt
  have h2 := q.y.isLt
  omega

/-- Witness for C8 at `s = (3, 4)`, `o = (2, -1)`. -/
theorem c8_witness :
    (-8 : Int) < 2 ∧ (2 : Int) < 8 ∧ (-8 : Int) < -1 ∧ (-1 : Int) < 8 ∧
    (∀ q, posAdd ⟨3, 4⟩ ⟨2, -1⟩ = .ok q →
      (q.x.val : Int) = (3 : Nat) + 2 ∧ (q.y.val : Int) = (4 : Nat) + -1) := by
  refine ⟨by decide, by decide, by decide, by decide, ?_⟩
  exact (c8_posAdd_spec ⟨3, 4⟩ ⟨2, -1⟩ (by decide) (by decide) (by decide)
    (by decide)).2.1

/-! ### Concrete boards used to witness the theorems -/

/-- A board with no pieces. -/
def emptyBoard : Board := ⟨fun _ => none⟩

/-- A board holding exactly one black pawn, at `(1, 0)`. -/
def oneBlackPawnBoard : Board :=
  ⟨fun q => if q = ⟨1, 0⟩ then some ⟨.Black, .Pawn, false⟩ else none⟩

/-- A board holding exactly one white rook, at `(0, 0)`. -/
def oneWhiteRookBoard : Board :=
  ⟨fun q => if q = ⟨0, 0⟩ then some ⟨.White, .Rook, false⟩ else none⟩

/-- A board holding exactly one white knight, at `(3, 3)`. -/
def oneWhiteKnightBoard : Board :=
  ⟨fun q => if q = ⟨3, 3⟩ then some ⟨.White, .Knight, false⟩ else none⟩

/-- A board holding exactly one black king, at `(4, 4)`. -/
def oneBlackKingBoard : Board :=
  ⟨fun q => if q = ⟨4, 4⟩ then some ⟨.Black, .King, false⟩ else none⟩

/-! ### C4, C5, C6, C10: the mutators -/

/-- C4: when `move_piece(from, to)` succeeds, the destination holds the
source piece with its `moved` flag set, the source is empty, and every
other cell is unchanged. -/
theorem c4_movePiece_ok (b : Board) (f t : Position) (piece : Piece)
    (hf : b.pieces f = some piece) (hok : (movePiece b f t).1 = .ok ()) :
    (movePiece b f t).2.pieces t = some { piece with moved := true } ∧
    (movePiece b f t).2.pieces f = none ∧
    ∀ q, q ≠ f → q ≠ t → (movePiece b f t).2.pieces q = b.pieces q := by
  rcases ht : b.pieces t with _ | pc
  · have hft : f ≠ t := fun h => by rw [h, ht] at hf; exact Option.noConfusion hf
    refine ⟨?_, ?_, ?_⟩
    · simp [movePiece, ht, hf, Board.set, hft, Ne.symm hft]
    · simp [movePiece, ht, hf, Board.set, hft, Ne.symm hft]
    · intro q hqf hqt
      simp [movePiece, ht, hf, Board.set, hqf, hqt]
  · simp [movePiece, ht] at hok

/-- Witness for C4: moving the rook of `oneWhiteRookBoard` from `(0,0)`
to `(0,3)` relocates it with the `moved` flag set and leaves `(5,5)`
untouched. -/
theorem c4_witness :
    (movePiece oneWhiteRookBoard ⟨0, 0⟩ ⟨0, 3⟩).2.pieces ⟨0, 3⟩ =
      some ⟨.White, .Rook, true⟩ ∧
    (movePiece oneWhiteRookBoard ⟨0, 0⟩ ⟨0, 3⟩).2.pieces ⟨0, 0⟩ = none ∧
    (movePiece oneWhiteRookBoard ⟨0, 0⟩ ⟨0, 3⟩).2.pieces ⟨5, 5⟩ =
      oneWhiteRookBoard.pieces ⟨5, 5⟩ := by
  have h := c4_movePiece_ok oneWhiteRookBoard ⟨0, 0⟩ ⟨0, 3⟩
    ⟨.White, .Rook, false⟩ (by decide) (by decide)
  exact ⟨h.1, h.2.1, h.2.2 ⟨5, 5⟩ (by decide) (by decide)⟩

/-- C5: a failing `move_piece` or `take_piece` leaves every cell of the
board unchanged. -/
theorem c5_atomicity (b : Board) (f t p : Position) :
    (∀ e, (movePiece b f t).1 = .error e →
      ∀ q, (movePiece b f t).2.pieces q = b.pieces q) ∧
    (∀ e, (takePiece b p).1 = .error e →
      ∀ q, (takePiece b p).2.pieces q = b.pieces q) := by
  constructor
  · intro e he q
    rcases ht : b.pieces t with _ | pc
    · rcases hf : b.pieces f with _ | pc2
      · simp [movePiece, ht, hf]
      · simp [movePiece, ht, hf] at he
    · simp [movePiece, ht]
  · intro e he q
    rcases hp : b.pieces p with _ | pc
    · simp [takePiece, hp]
    · simp [takePiece, hp] at he

/-- Witness for C5: a `NotFound` move on the empty board and a
`NotFound` removal both leave the inspected cell as it was. -/
theorem c5_witness :
    (movePiece emptyBoard ⟨0, 0⟩ ⟨1, 1⟩).2.pieces ⟨0, 0⟩ =
      emptyBoard.pieces ⟨0, 0⟩ ∧
    (takePiece emptyBoard ⟨2, 2⟩).2.pieces ⟨2, 2⟩ =
      emptyBoard.pieces ⟨2, 2⟩ := by
  have h := c5_atomicity emptyBoard ⟨0, 0⟩ ⟨1, 1⟩ ⟨2, 2⟩
  exact ⟨h.1 (.NotFound ⟨0, 0⟩) (by decide) ⟨0, 0⟩,
         h.2 (.NotFound ⟨2, 2⟩) (by decide) ⟨2, 2⟩⟩

/-- C6 counterexample: with the source square empty and the destination
occupied (black pawn at `(1,0)`), `move_piece` fails with `Occupied`,
not with `NotFound(from)` as the claim states for every empty source. -/
theorem c6_counterexample :
    oneBlackPawnBoard.pieces ⟨0, 0⟩ = none ∧
    (movePiece oneBlackPawnBoard ⟨0, 0⟩ ⟨1, 0⟩).1 =
      .error (.Occupied ⟨1, 0⟩ .Pawn) ∧
    (movePiece oneBlackPawnBoard ⟨0, 0⟩ ⟨1, 0⟩).1 ≠
      .error (.NotFound ⟨0, 0⟩) := by
  decide

/-- C6 (amended): if the destination is occupied, `move_piece` fails
with `Occupied(to, type)`; otherwise, if the source is empty it fails
with `NotFound(from)`; it returns `Ok` in exactly the remaining case
(source occupied, destination empty). -/
theorem c6_movePiece_result (b : Board) (f t : Position) :
    (b.pieces f = none → b.pieces t = none →
      (movePiece b f t).1 = .error (.NotFound f)) ∧
    (∀ pc, b.pieces t = some pc →
      (movePiece b f t).1 = .error (.Occupied t pc.piece_type)) ∧
    (∀ pc, b.pieces f = some pc → b.pieces t = none →
      (movePiece b f t).1 = .ok ()) := by
  refine ⟨fun hf ht => ?_, fun pc ht => ?_, fun pc hf ht => ?_⟩
  · simp [movePiece, hf, ht]
  · simp [movePiece, ht]
  · simp [movePiece, hf, ht]

/-- Witness for C6 (amended): each of the three cases observed on a
concrete board. -/
theorem c6_witness :
    (movePiece emptyBoard ⟨0, 0⟩ ⟨1, 1⟩).1 = .error (.NotFound ⟨0, 0⟩) ∧
    (movePiece oneBlackPawnBoard ⟨3, 3⟩ ⟨1, 0⟩).1 =
      .error (.Occupied ⟨1, 0⟩ .Pawn) ∧
    (movePiece oneWhiteRookBoard ⟨0, 0⟩ ⟨0, 3⟩).1 = .ok () := by
  refine ⟨(c6_movePiece_result emptyBoard ⟨0, 0⟩ ⟨1, 1⟩).1 (by decide) (by decide),
    (c6_movePiece_result oneBlackPawnBoard ⟨3, 3⟩ ⟨1, 0⟩).2.1
      ⟨.Black, .Pawn, false⟩ (by decide),
    (c6_movePiece_result oneWhiteRookBoard ⟨0, 0⟩ ⟨0, 3⟩).2.2
      ⟨.White, .Rook, false⟩ (by decide) (by decide)⟩

/-- C10: the destination is checked before the source, so an occupied
destination yields `Occupied(to, ·)` whatever the source holds — in
particular for an empty source, and for `move_piece(p, p)` on an
occupied `p`. -/
theorem c10_occupied_precedence (b : Board) (f t : Position) :
    (∀ pc, b.pieces t = some pc →
      (movePiece b f t).1 = .error (.Occupied t pc.piece_type)) ∧
    (∀ pc, b.pieces t = some pc →
      (movePiece b t t).1 = .error (.Occupied t pc.piece_type)) := by
  refine ⟨fun pc ht => ?_, fun pc ht => ?_⟩ <;> simp [movePiece, ht]

/-- Witness for C10: destination occupied with an empty source, and a
self-move of an occupied square, both fail with `Occupied`. -/
theorem c10_witness :
    (movePiece oneBlackPawnBoard ⟨0, 0⟩ ⟨1, 0⟩).1 =
      .error (.Occupied ⟨1, 0⟩ .Pawn) ∧
    (movePiece oneBlackPawnBoard ⟨1, 0⟩ ⟨1, 0⟩).1 =
      .error (.Occupied ⟨1, 0⟩ .Pawn) := by
  have h := c10_occupied_precedence oneBlackPawnBoard ⟨0, 0⟩ ⟨1, 0⟩
  exact ⟨h.1 ⟨.Black, .Pawn, false⟩ (by decide),
         h.2 ⟨.Black, .Pawn, false⟩ (by decide)⟩

/-! ### C7: check_positions error behaviour and dispatch -/

/-- C7: `check_positions` fails with `NotFound(p)` exactly when `p` is
empty, and on an occupied square returns `Ok` with the result of the
occupying piece's per-type generator.  (The Rust method takes `&self`,
so it is embedded as a pure function of the board: it cannot mutate.) -/
theorem c7_check_positions_spec (b : Board) (p : Position) :
    (check_positions b p = .error (.NotFound p) ↔ b.pieces p = none) ∧
    (∀ pc, b.pieces p = some pc →
      check_positions b p = .ok (match pc.piece_type with
        | .Pawn => check_pawn b p pc.color pc.moved
        | .Knight => check_knight b p pc.color
        | .Bishop => check_directions b p [.NE, .SE, .SW, .NW] pc.color
        | .Rook => check_directions b p [.N, .E, .S, .W] pc.color
        | .Queen =>
            check_directions b p [.N, .NE, .E, .SE, .S, .SW, .W, .NW] pc.color
        | .King => check_king b p pc.color)) := by
  rcases hp : b.pieces p with _ | pc
  · simp [check_positions, hp]
  · simp [check_positions, hp]

/-- Witness for C7: the black pawn at `(1, 0)` dispatches to the pawn
generator. -/
theorem c7_witness :
    check_positions oneBlackPawnBoard ⟨1, 0⟩ =
      .ok (check_pawn oneBlackPawnBoard ⟨1, 0⟩ .Black false) :=
  (c7_check_positions_spec oneBlackPawnBoard ⟨1, 0⟩).2
    ⟨.Black, .Pawn, false⟩ (by decide)

/-! ### Membership in fixed-offset generation -/

theorem check_position_move_iff (b : Board) (q : Position) (c : Color) :
    check_position b q c false false = true ↔ b.pieces q = none := by
  rcases h : b.pieces q with _ | pc
  · simp [check_position, h]
  · simp [check_position, h]

theorem check_position_take_iff (b : Board) (q : Position) (c : Color) :
    check_position b q c true true = true ↔
      ∃ pc, b.pieces q = some pc ∧ pc.color ≠ c := by
  rcases h : b.pieces q with _ | pc
  · simp [check_position, h]
  · by_cases hc : pc.color = c <;> simp [check_position, h, hc]

theorem check_position_enter_iff (b : Board) (q : Position) (c : Color) :
    check_position b q c true false = true ↔
      (b.pieces q = none ∨ ∃ pc, b.pieces q = some pc ∧ pc.color ≠ c) := by
  rcases h : b.pieces q with _ | pc
  · simp [check_position, h]
  · by_cases hc : pc.color = c <;> simp [check_position, h, hc]

theorem candidate_mem (b : Board) (p : Position) (c : Color) (o : Offset)
    (ct mt : Bool) (q : Position) :
    q ∈ candidate b p c o ct mt ↔
      posAdd p o = .ok q ∧ check_position b q c ct mt = true := by
  rcases h : posAdd p o with e | r
  · simp [candidate, h]
  · by_cases hc : check_position b r c ct mt = true
    · simp [candidate, h, hc]
      constructor
      · rintro rfl; exact ⟨rfl, hc⟩
      · rintro ⟨h1, _⟩; exact h1.symm
    · simp [candidate, h, hc]
      rintro rfl
      simp_all

theorem candidate_length_le (b : Board) (p : Position) (c : Color)
    (o : Offset) (ct mt : Bool) : (candidate b p c o ct mt).length ≤ 1 := by
  rcases h : posAdd p o with e | r
  · simp [candidate, h]
  · by_cases hc : check_position b r c ct mt = true <;> simp [candidate, h, hc]

theorem scanOffsets_mem (b : Board) (p : Position) (c : Color)
    (offs : List Offset) (q : Position) :
    q ∈ scanOffsets b p c offs ↔
      ∃ o ∈ offs, posAdd p o = .ok q ∧ check_position b q c true false = true := by
  induction offs with
  | nil => simp [scanOffsets]
  | cons o rest ih =>
      simp only [scanOffsets, List.mem_append, ih, candidate_mem, List.mem_cons]
      constructor
      · rintro (h | ⟨o2, ho2, h⟩)
        · exact ⟨o, Or.inl rfl, h⟩
        · exact ⟨o2, Or.inr ho2, h⟩
      · rintro ⟨o2, (rfl | ho2), h⟩
        · exact Or.inl h
        · exact Or.inr ⟨o2, ho2, h⟩

theorem scanOffsets_length_le (b : Board) (p : Position) (c : Color)
    (offs : List Offset) : (scanOffsets b p c offs).length ≤ offs.length := by
  induction offs with
  | nil => simp [scanOffsets]
  | cons o rest ih =>
      simp only [scanOffsets, List.length_append, List.length_cons]
      have := candidate_length_le b p c o true false
      omega

/-! ### C2: pawn generation -/

/-- C2: for a pawn of color `c` at `p`, `check_positions` is the union of
the four independently evaluated candidates: the double step (only with
the `moved` flag unset, destination in bounds and empty — the
intervening square is not consulted), the single step (in bounds and
empty), and the two diagonals (in bounds and enemy-occupied); candidates
whose offset leaves the board are dropped silently. -/
theorem c2_pawn_spec (b : Board) (p : Position) (c : Color) (mv : Bool)
    (h : b.pieces p = some ⟨c, .Pawn, mv⟩) :
    check_positions b p = .ok (check_pawn b p c mv) ∧
    ∀ q, q ∈ check_pawn b p c mv ↔
      ((mv = false ∧ posAdd p ⟨0, 2 * c.sign⟩ = .ok q ∧ b.pieces q = none) ∨
       (posAdd p ⟨0, c.sign⟩ = .ok q ∧ b.pieces q = none) ∨
       (posAdd p ⟨1, c.sign⟩ = .ok q ∧
         ∃ pc, b.pieces q = some pc ∧ pc.color ≠ c) ∨
       (posAdd p ⟨-1, c.sign⟩ = .ok q ∧
         ∃ pc, b.pieces q = some pc ∧ pc.color ≠ c)) := by
  refine ⟨by simp [check_positions, h], fun q => ?_⟩
  cases mv <;>
    simp [check_pawn, List.mem_append, candidate_mem,
      check_position_move_iff, check_position_take_iff, and_assoc]

/-- Witness for C2: an unmoved black pawn at `(1, 0)` (facing the board
edge in its travel direction, so every candidate is off-board). -/
theorem c2_witness :
    check_positions oneBlackPawnBoard ⟨1, 0⟩ =
      .ok (check_pawn oneBlackPawnBoard ⟨1, 0⟩ .Black false) :=
  (c2_pawn_spec oneBlackPawnBoard ⟨1, 0⟩ .Black false (by decide)).1

/-! ### C3: knight and king generation -/

/-- C3: for a knight (resp. king) of color `c` at `p`, `check_positions`
returns at most 8 squares: exactly the in-bounds destinations of the 8
fixed knight (resp. king) offsets that are empty or enemy-occupied. -/
theorem c3_knight_king_spec (b : Board) (p : Position) (c : Color) (mv : Bool) :
    (b.pieces p = some ⟨c, .Knight, mv⟩ →
      check_positions b p = .ok (check_knight b p c) ∧
      (check_knight b p c).length ≤ 8 ∧
      ∀ q, q ∈ check_knight b p c ↔
        ∃ o ∈ knightOffsets, posAdd p o = .ok q ∧
          (b.pieces q = none ∨ ∃ pc, b.pieces q = some pc ∧ pc.color ≠ c)) ∧
    (b.pieces p = some ⟨c, .King, mv⟩ →
      check_positions b p = .ok (check_king b p c) ∧
      (check_king b p c).length ≤ 8 ∧
      ∀ q, q ∈ check_king b p c ↔
        ∃ o ∈ kingOffsets, posAdd p o = .ok q ∧
          (b.pieces q = none ∨ ∃ pc, b.pieces q = some pc ∧ pc.color ≠ c)) := by
  constructor <;> intro h <;>
    refine ⟨by simp [check_positions, h], ?_, fun q => ?_⟩
  · exact scanOffsets_length_le b p c knightOffsets
  · simp only [check_knight, scanOffsets_mem, check_position_enter_iff]
  · exact scanOffsets_length_le b p c kingOffsets
  · simp only [check_king, scanOffsets_mem, check_position_enter_iff]

/-- Witness for C3: a lone white knight at `(3, 3)` and a lone black
king at `(4, 4)`. -/
theorem c3_witness :
    (check_positions oneWhiteKnightBoard ⟨3, 3⟩ =
      .ok (check_knight oneWhiteKnightBoard ⟨3, 3⟩ .White) ∧
      (check_knight oneWhiteKnightBoard ⟨3, 3⟩ .White).length ≤ 8) ∧
    (check_positions oneBlackKingBoard ⟨4, 4⟩ =
      .ok (check_king oneBlackKingBoard ⟨4, 4⟩ .Black) ∧
      (check_king oneBlackKingBoard ⟨4, 4⟩ .Black).length ≤ 8) := by
  have h1 := (c3_knight_king_spec oneWhiteKnightBoard ⟨3, 3⟩ .White false).1
    (by decide)
  have h2 := (c3_knight_king_spec oneBlackKingBoard ⟨4, 4⟩ .Black false).2
    (by decide)
  exact ⟨⟨h1.1, h1.2.1⟩, ⟨h2.1, h2.2.1⟩⟩

/-! ### The ray scan -/

theorem dirMeasure_le_7 (d : Direction) (p : Position) : dirMeasure d p ≤ 7 := by
  have hx := p.x.isLt
  have hy := p.y.isLt
  cases d <;> simp [dirMeasure] <;> omega

theorem dirMeasure_lt {d : Direction} {p q : Position}
    (h : posAdd p (dirOffset d) = .ok q) : dirMeasure d q < dirMeasure d p := by
  obtain ⟨hx, hy⟩ := posAdd_ok_coords h
  cases d <;> simp [dirOffset] at hx hy <;> simp [dirMeasure] <;> omega

/-- The fuel used by `check_direction` is irrelevant as soon as it
exceeds the measure: 8 always does, so the fuel rendering computes the
source's unbounded `loop` exactly. -/
theorem check_direction_aux_stable (b : Board) (d : Direction) (c : Color) :
    ∀ (f1 : Nat), ∀ (f2 : Nat) (p : Position), dirMeasure d p < f1 →
      dirMeasure d p < f2 →
      check_direction_aux b (dirOffset d) c f1 p =
        check_direction_aux b (dirOffset d) c f2 p := by
  intro f1
  induction f1 with
  | zero => intro f2 p h1 _; omega
  | succ f ih =>
      intro f2 p h1 h2
      rcases f2 with _ | f2
      · omega
      · rcases hadd : posAdd p (dirOffset d) with e | q
        · simp only [check_direction_aux, hadd]
        · have hq := dirMeasure_lt hadd
          rcases hpc : b.pieces q with _ | pc
          · simp only [check_direction_aux, hadd, hpc]
            rw [ih f2 q (by omega) (by omega)]
          · simp only [check_direction_aux, hadd, hpc]

/-- The list of the first `m` squares along a ray: `some` of
`[p+o, p+2·o, …, p+m·o]` when all of them are on the board, `none`
otherwise. -/
def rayPositions (p : Position) (o : Offset) : Nat → Option (List Position)
  | 0 => some []
  | m + 1 =>
    match posAdd p o with
    | .ok q => (rayPositions q o m).map (q :: ·)
    | .error _ => none

theorem rayPositions_length {o : Offset} :
    ∀ {m : Nat} {p : Position} {L : List Position},
      rayPositions p o m = some L → L.length = m := by
  intro m
  induction m with
  | zero => intro p L h; simp [rayPositions] at h; simp [← h]
  | succ m ih =>
      intro p L h
      rcases hadd : posAdd p o with e | q <;>
        simp only [rayPositions, hadd] at h
      · exact absurd h (by simp)
      · rw [Option.map_eq_some'] at h
        obtain ⟨L2, hL2, rfl⟩ := h
        simp [ih hL2]

theorem dropLast_cons_subset {α : Type} (a : α) (l : List α) :
    (a :: l).dropLast ⊆ a :: l.dropLast := by
  cases l with
  | nil => simp
  | cons b t =>
      rw [List.dropLast_cons₂]
      exact List.Subset.refl _

/-- Why a ray scan with enough fuel can come back empty: the very first
step is off the board, or lands on a piece of the scanning color. -/
theorem check_direction_aux_nil {b : Board} {d : Direction} {c : Color}
    {fuel : Nat} {p : Position} (hfuel : dirMeasure d p < fuel)
    (h : check_direction_aux b (dirOffset d) c fuel p = []) :
    (∀ r, posAdd p (dirOffset d) ≠ .ok r) ∨
    (∃ r pc, posAdd p (dirOffset d) = .ok r ∧ b.pieces r = some pc ∧
      pc.color = c) := by
  rcases fuel with _ | f
  · omega
  · rcases hadd : posAdd p (dirOffset d) with e | r
    · exact Or.inl (fun r hr => Except.noConfusion hr)
    · simp only [check_direction_aux, hadd] at h
      rcases hpc : b.pieces r with _ | pc <;> simp only [hpc] at h
      · exact absurd h (by simp)
      · by_cases hcol : pc.color = c
        · exact Or.inr ⟨r, pc, rfl, hpc, hcol⟩
        · rw [if_neg hcol] at h
          exact absurd h (by simp)

/-- The full characterization of one ray scan, proved by induction on
the fuel: the output is an initial segment of the ray, every square
before the last is empty, the last square is an enemy capture or the
scan stopped right after it (board edge or friendly piece), and no
friendly-occupied square is ever produced. -/
theorem check_direction_aux_spec (b : Board) (d : Direction) (c : Color) :
    ∀ (fuel : Nat) (p : Position), dirMeasure d p < fuel →
      ∃ m, rayPositions p (dirOffset d) m =
          some (check_direction_aux b (dirOffset d) c fuel p) ∧
        (∀ q ∈ (check_direction_aux b (dirOffset d) c fuel p).dropLast,
          b.pieces q = none) ∧
        (∀ q, (check_direction_aux b (dirOffset d) c fuel p).getLast? = some q →
          (b.pieces q = none ∧
            ((∀ r, posAdd q (dirOffset d) ≠ .ok r) ∨
             (∃ r pc, posAdd q (dirOffset d) = .ok r ∧ b.pieces r = some pc ∧
               pc.color = c))) ∨
          (∃ pc, b.pieces q = some pc ∧ pc.color ≠ c)) ∧
        (∀ q ∈ check_direction_aux b (dirOffset d) c fuel p,
          ∀ pc, b.pieces q = some pc → pc.color ≠ c) := by
  intro fuel
  induction fuel with
  | zero => intro p h; omega
  | succ f ih =>
      intro p hfuel
      rcases hadd : posAdd p (dirOffset d) with e | q
      · simp only [check_direction_aux, hadd]
        exact ⟨0, by simp [rayPositions], by simp, by simp, by simp⟩
      · have hq := dirMeasure_lt hadd
        rcases hpc : b.pieces q with _ | pc
        · simp only [check_direction_aux, hadd, hpc]
          obtain ⟨m, hray, hdrop, hlast, hmem⟩ := ih q (by omega)
          refine ⟨m + 1, ?_, ?_, ?_, ?_⟩
          · simp [rayPositions, hadd, hray]
          · intro z hz
            rcases List.mem_cons.1 (dropLast_cons_subset q _ hz) with rfl | hz2
            · exact hpc
            · exact hdrop z hz2
          · intro z hz
            rcases hL : check_direction_aux b (dirOffset d) c f q with _ | ⟨a, t⟩
            · rw [hL] at hz
              simp at hz
              subst hz
              exact Or.inl ⟨hpc, check_direction_aux_nil (by omega) hL⟩
            · rw [hL] at hz
              rw [List.getLast?_cons_cons] at hz
              rw [← hL] at hz
              exact hlast z hz
          · intro z hz pc2 hz2
            rcases List.mem_cons.1 hz with rfl | hz3
            · rw [hpc] at hz2; exact Option.noConfusion hz2
            · exact hmem z hz3 pc2 hz2
        · by_cases hcol : pc.color = c
          · simp only [check_direction_aux, hadd, hpc, if_pos hcol]
            exact ⟨0, by simp [rayPositions], by simp, by simp, by simp⟩
          · simp only [check_direction_aux, hadd, hpc, if_neg hcol]
            refine ⟨1, ?_, by simp, ?_, ?_⟩
            · simp [rayPositions, hadd]
            · intro z hz
              simp at hz
              subst hz
              exact Or.inr ⟨pc, hpc, hcol⟩
            · intro z hz pc2 hz2
              simp at hz
              subst hz
              rw [hpc] at hz2
              injection hz2 with hz2
              subst hz2
              exact hcol

/-! ### C1: sliding generation -/

/-- The scan-direction table of the `check_positions` dispatch for the
sliding piece types (`board/mailbox.rs`). -/
def scanDirections : PieceType → List Direction
  | .Bishop => [.NE, .SE, .SW, .NW]
  | .Rook => [.N, .E, .S, .W]
  | .Queen => [.N, .NE, .E, .SE, .S, .SW, .W, .NW]
  | _ => []

/-- What one direction of a sliding scan actually returns: an initial
segment `p+o, …, p+m·o` of the ray with every square before the last
empty, where the last square is an enemy capture or is empty with the
scan stopping right after it — because the next ray square is off the
board **or holds a piece of the scanning color** — and no
friendly-occupied square is ever returned. -/
def raySpec (b : Board) (p : Position) (d : Direction) (c : Color) : Prop :=
  ∃ m L, rayPositions p (dirOffset d) m = some L ∧
    check_direction b p d c = L ∧
    (∀ q ∈ L.dropLast, b.pieces q = none) ∧
    (∀ q, L.getLast? = some q →
      (b.pieces q = none ∧
        ((∀ r, posAdd q (dirOffset d) ≠ .ok r) ∨
         (∃ r pc, posAdd q (dirOffset d) = .ok r ∧ b.pieces r = some pc ∧
           pc.color = c))) ∨
      (∃ pc, b.pieces q = some pc ∧ pc.color ≠ c)) ∧
    (∀ q ∈ L, ∀ pc, b.pieces q = some pc → pc.color ≠ c)

/-- The per-direction property claimed by C1 as stated: identical to
`raySpec` except that an empty last square is required to be the last
in-bounds square of the ray — the claim omits the possibility that the
scan stopped in mid-board before a friendly piece. -/
def c1ClaimedRay (b : Board) (p : Position) (d : Direction) (c : Color) : Prop :=
  ∃ m L, rayPositions p (dirOffset d) m = some L ∧
    check_direction b p d c = L ∧
    (∀ q ∈ L.dropLast, b.pieces q = none) ∧
    (∀ q, L.getLast? = some q →
      (b.pieces q = none ∧ ∀ r, posAdd q (dirOffset d) ≠ .ok r) ∨
      (∃ pc, b.pieces q = some pc ∧ pc.color ≠ c)) ∧
    (∀ q ∈ L, ∀ pc, b.pieces q = some pc → pc.color ≠ c)

theorem raySpec_holds (b : Board) (p : Position) (d : Direction) (c : Color) :
    raySpec b p d c := by
  obtain ⟨m, hray, hdrop, hlast, hmem⟩ :=
    check_direction_aux_spec b d c 8 p (by have := dirMeasure_le_7 d p; omega)
  exact ⟨m, check_direction b p d c, hray, rfl, hdrop, hlast, hmem⟩

/-- A white rook at `(0, 0)` with a white pawn at `(0, 3)` and the two
squares between them empty. -/
def c1Board : Board :=
  ⟨fun q =>
    if q = ⟨0, 0⟩ then some ⟨.White, .Rook, false⟩
    else if q = ⟨0, 3⟩ then some ⟨.White, .Pawn, false⟩
    else none⟩

/-- C1 counterexample: scanning north from the rook of `c1Board` returns
`[(0,1), (0,2)]`; the last returned square `(0,2)` is empty, yet it is
neither the last in-bounds square of the ray (the ray continues to
`(0,3)`) nor enemy-occupied — the scan stopped before the friendly pawn,
a case the claim's characterization does not admit. -/
theorem c1_counterexample :
    c1Board.pieces ⟨0, 0⟩ = some ⟨.White, .Rook, false⟩ ∧
    check_direction c1Board ⟨0, 0⟩ .N .White = [⟨0, 1⟩, ⟨0, 2⟩] ∧
    ¬ c1ClaimedRay c1Board ⟨0, 0⟩ .N .White := by
  refine ⟨by decide, by decide, ?_⟩
  rintro ⟨m, L, hray, heq, hdrop, hlast, hmem⟩
  have hL : L = [⟨0, 1⟩, ⟨0, 2⟩] := by rw [← heq]; decide
  subst hL
  rcases hlast ⟨0, 2⟩ (by decide) with ⟨hempty, hnone⟩ | ⟨pc, hq, _⟩
  · exact hnone ⟨0, 3⟩ (by decide)
  · rw [show c1Board.pieces ⟨0, 2⟩ = none from by decide] at hq
    exact Option.noConfusion hq

/-- C1 (amended): for a sliding piece (bishop, rook, queen) of color `c`
at `p`, `check_positions` returns the per-direction scans of the piece's
direction table appended together, and every direction's scan is an
initial ray segment `p+o, …, p+m·o` whose first `m−1` squares are empty
and whose last square is an enemy capture, or is empty with the next ray
square off the board **or friendly-occupied**; a square holding a piece
of color `c` is never included, and no square beyond the first occupied
square of a ray is included. -/
theorem c1_sliding_spec (b : Board) (p : Position) (pc : Piece)
    (h : b.pieces p = some pc)
    (hs : pc.piece_type = .Bishop ∨ pc.piece_type = .Rook ∨
      pc.piece_type = .Queen) :
    check_positions b p =
      .ok (check_directions b p (scanDirections pc.piece_type) pc.color) ∧
    ∀ d ∈ scanDirections pc.piece_type, raySpec b p d pc.color := by
  refine ⟨?_, fun d _ => raySpec_holds b p d pc.color⟩
  rcases hs with hs | hs | hs <;> simp [check_positions, h, hs, scanDirections]

/-- Witness for C1 (amended): the lone white rook at `(0, 0)`. -/
theorem c1_witness :
    oneWhiteRookBoard.pieces ⟨0, 0⟩ = some ⟨.White, .Rook, false⟩ ∧
    check_positions oneWhiteRookBoard ⟨0, 0⟩ =
      .ok (check_directions oneWhiteRookBoard ⟨0, 0⟩ (scanDirections .Rook)
        .White) ∧
    raySpec oneWhiteRookBoard ⟨0, 0⟩ .N .White := by
  have h := c1_sliding_spec oneWhiteRookBoard ⟨0, 0⟩ ⟨.White, .Rook, false⟩
    (by decide) (Or.inr (Or.inl rfl))
  exact ⟨by decide, h.1, h.2 .N (by decide)⟩

/-! ### C9: no duplicates -/

/-- Every square returned by a ray scan lies on the ray: it is
`p + k·o` for some step count `k ≥ 1`. -/
theorem check_direction_aux_mem (b : Board) (o : Offset) (c : Color) :
    ∀ (fuel : Nat) (p q : Position), q ∈ check_direction_aux b o c fuel p →
      ∃ k : Nat, 1 ≤ k ∧ (q.x.val : Int) = p.x.val + k * o.x ∧
        (q.y.val : Int) = p.y.val + k * o.y := by
  intro fuel
  induction fuel with
  | zero => intro p q h; simp [check_direction_aux] at h
  | succ f ih =>
      intro p q h
      rcases hadd : posAdd p o with e | r
      · simp only [check_direction_aux, hadd] at h
        simp at h
      · simp only [check_direction_aux, hadd] at h
        obtain ⟨hx, hy⟩ := posAdd_ok_coords hadd
        rcases hpc : b.pieces r with _ | pc
        · simp only [hpc] at h
          rcases List.mem_cons.1 h with rfl | h2
          · exact ⟨1, le_refl 1, by push_cast; linarith, by push_cast; linarith⟩
          · obtain ⟨k, hk, hkx, hky⟩ := ih r q h2
            refine ⟨k + 1, by omega, ?_, ?_⟩
            · push_cast
              linear_combination hkx + hx
            · push_cast
              linear_combination hky + hy
        · simp only [hpc] at h
          by_cases hcol : pc.color = c
          · rw [if_pos hcol] at h
            simp at h
          · rw [if_neg hcol] at h
            simp at h
            subst h
            exact ⟨1, le_refl 1, by push_cast; linarith, by push_cast; linarith⟩

theorem dirOffset_ne_zero (d : Direction) :
    (dirOffset d).x ≠ 0 ∨ (dirOffset d).y ≠ 0 := by
  cases d <;> simp [dirOffset]

/-- A single ray scan never repeats a square. -/
theorem check_direction_aux_nodup (b : Board) (o : Offset) (c : Color)
    (ho : o.x ≠ 0 ∨ o.y ≠ 0) :
    ∀ (fuel : Nat) (p : Position),
      (check_direction_aux b o c fuel p).Nodup := by
  intro fuel
  induction fuel with
  | zero => intro p; simp [check_direction_aux]
  | succ f ih =>
      intro p
      rcases hadd : posAdd p o with e | r
      · simp [check_direction_aux, hadd]
      · simp only [check_direction_aux, hadd]
        rcases hpc : b.pieces r with _ | pc
        · simp only [hpc]
          refine List.nodup_cons.2 ⟨?_, ih r⟩
          intro hmem
          obtain ⟨k, hk, hkx, hky⟩ := check_direction_aux_mem b o c f r r hmem
          have hx0 : (k : Int) * o.x = 0 := by linarith
          have hy0 : (k : Int) * o.y = 0 := by linarith
          rcases ho with ho | ho
          · rcases mul_eq_zero.1 hx0 with h0 | h0
            · have : (k : Int) ≥ 1 := by exact_mod_cast hk
              omega
            · exact ho h0
          · rcases mul_eq_zero.1 hy0 with h0 | h0
            · have : (k : Int) ≥ 1 := by exact_mod_cast hk
              omega
            · exact ho h0
        · simp only [hpc]
          split <;> simp

/-- Distinct scan directions from the same square never return a common
square: the step signs of a returned square recover its direction. -/
theorem check_direction_disjoint (b : Board) (p : Position) (c : Color)
    {d1 d2 : Direction} (hne : d1 ≠ d2) (q : Position)
    (h1 : q ∈ check_direction b p d1 c) (h2 : q ∈ check_direction b p d2 c) :
    False := by
  obtain ⟨k1, hk1, hx1, hy1⟩ :=
    check_direction_aux_mem b (dirOffset d1) c 8 p q h1
  obtain ⟨k2, hk2, hx2, hy2⟩ :=
    check_direction_aux_mem b (dirOffset d2) c 8 p q h2
  cases d1 <;> cases d2 <;>
    first
    | exact hne rfl
    | (simp [dirOffset] at hx1 hy1 hx2 hy2; omega)

theorem check_directions_eq_join (b : Board) (p : Position) (c : Color) :
    ∀ (ds : List Direction) (acc : List Position),
      ds.foldl (fun out d => out ++ check_direction b p d c) acc =
        acc ++ (ds.map (fun d => check_direction b p d c)).flatten := by
  intro ds
  induction ds with
  | nil => intro acc; simp
  | cons d rest ih => intro acc; simp [ih, List.append_assoc]

theorem check_directions_nodup (b : Board) (p : Position) (c : Color)
    (ds : List Direction) (hnd : ds.Nodup) :
    (check_directions b p ds c).Nodup := by
  have hjoin : ∀ ds2 : List Direction, ds2.Nodup →
      ((ds2.map (fun d => check_direction b p d c)).flatten).Nodup := by
    intro ds2
    induction ds2 with
    | nil => intro _; simp
    | cons d rest ih =>
        intro hnd2
        rw [List.nodup_cons] at hnd2
        simp only [List.map_cons, List.flatten_cons]
        rw [List.nodup_append]
        refine ⟨check_direction_aux_nodup b (dirOffset d) c
          (dirOffset_ne_zero d) 8 p, ih hnd2.2, ?_⟩
        intro q hq1 hq2
        rw [List.mem_flatten] at hq2
        obtain ⟨l, hl, hql⟩ := hq2
        rw [List.mem_map] at hl
        obtain ⟨d2, hd2, rfl⟩ := hl
        have hne : d ≠ d2 := fun hEq => hnd2.1 (hEq ▸ hd2)
        exact check_direction_disjoint b p c hne q hq1 hql
  rw [check_directions, check_directions_eq_join b p c ds [], List.nil_append]
  exact hjoin ds hnd

theorem candidate_nodup (b : Board) (p : Position) (c : Color) (o : Offset)
    (ct mt : Bool) : (candidate b p c o ct mt).Nodup := by
  rcases hadd : posAdd p o with e | r
  · simp [candidate, hadd]
  · by_cases hc : check_position b r c ct mt = true <;> simp [candidate, hadd, hc]

theorem candidate_disjoint (b : Board) (p : Position) (c : Color)
    {o1 o2 : Offset} (hne : o1 ≠ o2) (ct1 mt1 ct2 mt2 : Bool) :
    (candidate b p c o1 ct1 mt1).Disjoint (candidate b p c o2 ct2 mt2) := by
  intro q h1 h2
  exact hne (posAdd_offset_injective
    ((candidate_mem b p c o1 ct1 mt1 q).1 h1).1
    ((candidate_mem b p c o2 ct2 mt2 q).1 h2).1)

theorem nodup_append4 {l1 l2 l3 l4 : List Position}
    (h1 : l1.Nodup) (h2 : l2.Nodup) (h3 : l3.Nodup) (h4 : l4.Nodup)
    (d12 : l1.Disjoint l2) (d13 : l1.Disjoint l3) (d14 : l1.Disjoint l4)
    (d23 : l2.Disjoint l3) (d24 : l2.Disjoint l4) (d34 : l3.Disjoint l4) :
    (l1 ++ l2 ++ l3 ++ l4).Nodup := by
  simp only [List.nodup_append, List.disjoint_append_left,
    List.disjoint_append_right]
  exact ⟨⟨⟨h1, h2, d12⟩, h3, d13, d23⟩, h4, ⟨d14, d24⟩, d34⟩

theorem check_pawn_nodup (b : Board) (p : Position) (c : Color) (mv : Bool) :
    (check_pawn b p c mv).Nodup := by
  have hd : ∀ (o1 o2 : Offset), o1 ≠ o2 → ∀ ct1 mt1 ct2 mt2,
      (candidate b p c o1 ct1 mt1).Disjoint (candidate b p c o2 ct2 mt2) :=
    fun o1 o2 hne ct1 mt1 ct2 mt2 => candidate_disjoint b p c hne ct1 mt1 ct2 mt2
  cases mv
  · simp only [check_pawn, if_neg Bool.false_ne_true]
    refine nodup_append4 (candidate_nodup b p c _ _ _) (candidate_nodup b p c _ _ _)
      (candidate_nodup b p c _ _ _) (candidate_nodup b p c _ _ _)
      (hd _ _ ?_ _ _ _ _) (hd _ _ ?_ _ _ _ _) (hd _ _ ?_ _ _ _ _)
      (hd _ _ ?_ _ _ _ _) (hd _ _ ?_ _ _ _ _) (hd _ _ ?_ _ _ _ _) <;>
      cases c <;> decide
  · simp only [check_pawn, if_pos rfl]
    refine nodup_append4 (List.nodup_nil) (candidate_nodup b p c _ _ _)
      (candidate_nodup b p c _ _ _) (candidate_nodup b p c _ _ _)
      (by simp [List.Disjoint]) (by simp [List.Disjoint]) (by simp [List.Disjoint])
      (hd _ _ ?_ _ _ _ _) (hd _ _ ?_ _ _ _ _) (hd _ _ ?_ _ _ _ _) <;>
      cases c <;> decide

theorem scanOffsets_nodup (b : Board) (p : Position) (c : Color) :
    ∀ offs : List Offset, offs.Nodup → (scanOffsets b p c offs).Nodup := by
  intro offs
  induction offs with
  | nil => intro _; simp [scanOffsets]
  | cons o rest ih =>
      intro hnd
      rw [List.nodup_cons] at hnd
      simp only [scanOffsets]
      rw [List.nodup_append]
      refine ⟨candidate_nodup b p c o true false, ih hnd.2, ?_⟩
      intro q hq1 hq2
      obtain ⟨ho1, _⟩ := (candidate_mem b p c o true false q).1 hq1
      obtain ⟨o2, ho2mem, ho2, _⟩ := (scanOffsets_mem b p c rest q).1 hq2
      exact hnd.1 ((posAdd_offset_injective ho1 ho2) ▸ ho2mem)

/-- C9: `check_positions` never returns the same square twice, for every
piece type. -/
theorem c9_no_duplicates (b : Board) (p : Position) (L : List Position)
    (h : check_positions b p = .ok L) : L.Nodup := by
  rcases hp : b.pieces p with _ | pc
  · simp [check_positions, hp] at h
  · simp only [check_positions, hp] at h
    injection h with h
    subst h
    rcases pc with ⟨c, t, mv⟩
    cases t
    · exact check_pawn_nodup b p c mv
    · exact scanOffsets_nodup b p c knightOffsets (by decide)
    · exact check_directions_nodup b p c [.NE, .SE, .SW, .NW] (by decide)
    · exact check_directions_nodup b p c [.N, .E, .S, .W] (by decide)
    · exact check_directions_nodup b p c [.N, .NE, .E, .SE, .S, .SW, .W, .NW]
        (by decide)
    · exact scanOffsets_nodup b p c kingOffsets (by decide)

/-- Witness for C9: the knight at `(3, 3)` on the otherwise empty board
yields a duplicate-free list. -/
theorem c9_witness : (check_knight oneWhiteKnightBoard ⟨3, 3⟩ .White).Nodup :=
  c9_no_duplicates oneWhiteKnightBoard ⟨3, 3⟩
    (check_knight oneWhiteKnightBoard ⟨3, 3⟩ .White) (by decide)

end Chess
